import Mathlib

/-!
Verification of the JVM-options patching scripts of easy-cass-lab
(`packer/patch-jvm-options.py` and `packer/cassandra/patch-jvm-options.py`).

Text lines are modelled as lists of characters (`Str`).  The Python string
operations the scripts use (`str.strip`, `str.startswith`, `line.split("=")`,
`"=" in line`) and the CPython dict holding the patch entries (insertion
ordered, assignment replaces in place, `del` removes) are embedded as
executable Lean functions, and the drivers of the two scripts are embedded as
`merge` and `versionAwareRun`.  Operations that can raise a Python exception
(`ValueError` from tuple unpacking, `TypeError` from subscripting a failed
regex match) are `Option`-valued, `none` marking the raised error.
-/

namespace PatchJVM

/-- A line of text, as a list of characters. -/
abbrev Str := List Char

/-- The characters removed by Python `str.strip()` with no argument
(ASCII whitespace). -/
def isSpaceChar (c : Char) : Bool :=
  c == ' ' || c == '\t' || c == '\n' || c == '\r' || c == '\x0b' || c == '\x0c'

/-- Python `line.strip()`: drop whitespace from both ends. -/
def strip (l : Str) : Str :=
  ((l.dropWhile isSpaceChar).reverse.dropWhile isSpaceChar).reverse

/-- Python `line.startswith(p)`. -/
def startsWith : Str → Str → Bool
  | [], _ => true
  | _ :: _, [] => false
  | p :: ps, c :: cs => p == c && startsWith ps cs

/-- Python `"=" in line`. -/
def containsEq (l : Str) : Bool := l.any (· == '=')

/-- Python `line.split("=")`: split on every `=` character
(no `maxsplit` argument is passed in the source). -/
def splitEq : Str → List Str
  | [] => [[]]
  | c :: cs =>
    if c == '=' then [] :: splitEq cs
    else
      match splitEq cs with
      | p :: ps => (c :: p) :: ps
      | [] => [[c]]

/-- Rejoin the parts produced by `splitEq` with `=` between them. -/
def joinParts : List Str → Str
  | [] => []
  | [p] => p
  | p :: q :: ps => p ++ '=' :: joinParts (q :: ps)

/-- The character class `[a-z]` of the regex `(-Xm[a-z])(.*)`. -/
def isLowerAZ (c : Char) : Bool := 'a' ≤ c && c ≤ 'z'

/-- The condition under which both drivers skip a line:
`line.startswith("#") or line.strip() == ""`. -/
def skipLine (l : Str) : Bool := startsWith ['#'] l || (strip l).isEmpty

/-- The `JVMOption` class: a key, a value and a separator. -/
structure JVMOption where
  key : Str
  value : Str
  sep : Str
deriving DecidableEq

/-- `JVMOption.__init__(line)`.
* If the line contains `=`, Python runs `self.key, self.value =
  line.split("=")`; the unpacking succeeds only when the split yields exactly
  two parts (exactly one `=` in the line), otherwise a `ValueError` is raised
  (`none`).
* Else, if the line starts with `-Xm`, the regex `(-Xm[a-z])(.*)` is matched;
  when the fourth character is absent or not a lowercase letter the match is
  `None` and subscripting it raises a `TypeError` (`none`).
* Else the whole line is the key, the value is empty, the separator empty. -/
def JVMOption.init (line : Str) : Option JVMOption :=
  if containsEq line then
    match splitEq line with
    | [k, v] => some { key := k, value := v, sep := ['='] }
    | _ => none
  else if startsWith ['-', 'X', 'm'] line then
    match line with
    | c0 :: c1 :: c2 :: c3 :: rest =>
      if isLowerAZ c3 then
        some { key := [c0, c1, c2, c3], value := rest, sep := [] }
      else none
    | _ => none
  else some { key := line, value := [], sep := [] }

/-- `JVMOption.__repr__`: `self.key + self.sep + self.value`. -/
def JVMOption.repr (o : JVMOption) : Str := o.key ++ o.sep ++ o.value

/-- The in-memory patch mapping, a CPython dict from option key to option:
an insertion-ordered association list.  CPython dicts preserve insertion
order; assigning to an existing key keeps its position, `del` removes the
entry. -/
abbrev PatchIndex := List (Str × JVMOption)

/-- Dict lookup `d[k]` / membership `k in d`. -/
def lookupAssoc {α : Type} : List (Str × α) → Str → Option α
  | [], _ => none
  | e :: rest, k => if e.1 = k then some e.2 else lookupAssoc rest k

/-- Dict assignment `d[k] = o`: replace in place when the key is present,
append otherwise. -/
def insertKey : PatchIndex → Str → JVMOption → PatchIndex
  | [], k, o => [(k, o)]
  | e :: rest, k, o => if e.1 = k then (k, o) :: rest else e :: insertKey rest k o

/-- Dict deletion `del d[k]`. -/
def delKey : PatchIndex → Str → PatchIndex
  | [], _ => []
  | e :: rest, k => if e.1 = k then rest else e :: delKey rest k

/-- The patch-file indexing loop: skip comment/blank lines, parse the rest,
and store each option under its key (`patch[option.key] = option`).
`none` when a `JVMOption` constructor raises. -/
def buildPatch : List Str → PatchIndex → Option PatchIndex
  | [], m => some m
  | line :: rest, m =>
    if skipLine line then buildPatch rest m
    else
      match JVMOption.init (strip line) with
      | some o => buildPatch rest (insertKey m o.key o)
      | none => none

/-- The base-file scan: copy comment/blank lines verbatim; for an option
line, write the patch's serialization and delete the entry when its key is
indexed, else write the base option's own serialization.  Returns the output
lines produced and the remaining patch index. -/
def mergeScan : List Str → PatchIndex → Option (List Str × PatchIndex)
  | [], m => some ([], m)
  | line :: rest, m =>
    if skipLine line then
      match mergeScan rest m with
      | some (out, m2) => some (line :: out, m2)
      | none => none
    else
      match JVMOption.init (strip line) with
      | none => none
      | some o =>
        match lookupAssoc m o.key with
        | some p =>
          match mergeScan rest (delKey m o.key) with
          | some (out, m2) => some (JVMOption.repr p :: out, m2)
          | none => none
        | none =>
          match mergeScan rest m with
          | some (out, m2) => some (JVMOption.repr o :: out, m2)
          | none => none

/-- Scan the base lines against a patch index, then append the serialization
of every remaining patch entry in index (insertion) order. -/
def mergeWithIndex (base : List Str) (m : PatchIndex) : Option (List Str) :=
  match mergeScan base m with
  | some (out, m2) => some (out ++ m2.map (fun e => JVMOption.repr e.2))
  | none => none

/-- The whole driver of `packer/patch-jvm-options.py`: index the patch file,
scan the base file, append the unconsumed patch entries.  The result is the
list of output lines; `none` when a parse error (Python exception) aborts
the run. -/
def merge (base patchLines : List Str) : Option (List Str) :=
  match buildPatch patchLines [] with
  | some m => mergeWithIndex base m
  | none => none

/-! ### The version-aware entry point (`packer/cassandra/patch-jvm-options.py`) -/

/-- One record of `cassandra_versions.yaml`: the catalog maps a version
string to a record with (at least) a `jvm` file path. -/
structure CatalogEntry where
  jvm : Str
deriving DecidableEq

/-- The observable outcome of a run of the version-aware script: the process
exit code and the files written (path, lines). -/
structure RunOutcome where
  exitCode : Nat
  writes : List (Str × List Str)
deriving DecidableEq

/-- The version-aware entry point, invoked with `-v <version>`.
`if args.version:` is false for an empty string, in which case the catalog is
never consulted; otherwise `args.version in data` is checked and the absent
case prints "Version not found in cassandra_versions.yaml" and calls
`sys.exit(1)` before any output file is opened.  The found case falls
through to the unconditional `print(args); sys.exit(1)` (lines 97-99 of the
source), which also precedes every file write, so every path exits with
code 1 having written nothing. -/
def versionAwareRun (catalog : List (Str × CatalogEntry)) (version : Str) :
    RunOutcome :=
  if version.isEmpty then { exitCode := 1, writes := [] }
  else
    match lookupAssoc catalog version with
    | none => { exitCode := 1, writes := [] }
    | some _ => { exitCode := 1, writes := [] }

/-! ### Definitions written from the spec's words, for the relational claims -/

/-- The key of a line, when it parses (spec side, for stating claims). -/
def keyOfLine (l : Str) : Option Str :=
  (JVMOption.init (strip l)).map JVMOption.key

/-- The keys of the option (non-comment, non-blank, parseable) lines of a
file, in file order. -/
def optionKeys : List Str → List Str
  | [] => []
  | l :: rest =>
    if skipLine l then optionKeys rest
    else
      match JVMOption.init (strip l) with
      | some o => o.key :: optionKeys rest
      | none => optionKeys rest

/-- The (key, option) pairs of the option lines of a file, in file order. -/
def optionEntries : List Str → PatchIndex
  | [] => []
  | l :: rest =>
    if skipLine l then optionEntries rest
    else
      match JVMOption.init (strip l) with
      | some o => (o.key, o) :: optionEntries rest
      | none => optionEntries rest

/-- Remove from an index every entry whose key occurs in `ks`, keeping the
order of the rest. -/
def removeKeys (ks : List Str) : PatchIndex → PatchIndex
  | [] => []
  | e :: rest =>
    if e.1 ∈ ks then removeKeys ks rest else e :: removeKeys ks rest

/-- Fold the option keys of a file onto an accumulator, appending each key
the first time it is seen (spec side: "first-insertion order"). -/
def addKeys (acc : List Str) : List Str → List Str
  | [] => acc
  | l :: rest =>
    if skipLine l then addKeys acc rest
    else
      match JVMOption.init (strip l) with
      | some o => addKeys (if o.key ∈ acc then acc else acc ++ [o.key]) rest
      | none => addKeys acc rest

/-- The option keys of a file in order of first occurrence. -/
def firstKeys (ls : List Str) : List Str := addKeys [] ls

/-- The option of the last non-comment, non-blank, parseable line of a file
whose key is `k` (spec side: "last occurrence"). -/
def lastPatchOption : List Str → Str → Option JVMOption
  | [], _ => none
  | l :: rest, k =>
    match lastPatchOption rest k with
    | some o => some o
    | none =>
      if skipLine l then none
      else
        match JVMOption.init (strip l) with
        | some o => if o.key = k then some o else none
        | none => none

/-- Re-serialization of one line, per the spec: comment and blank lines pass
through, an option line becomes `key + separator + value` of its parse. -/
def reserializeLine (l : Str) : Option Str :=
  if skipLine l then some l
  else (JVMOption.init (strip l)).map JVMOption.repr

/-- Re-serialization of a whole file, per the spec: every line re-serialized
in order, failing if any line fails to parse. -/
def reserialize : List Str → Option (List Str)
  | [] => some []
  | l :: rest =>
    match reserializeLine l, reserialize rest with
    | some r, some rs => some (r :: rs)
    | _, _ => none

/-- A line of a well-formed options file: a comment or blank line, or an
option line that is its own strip and parses. -/
def cleanLine (l : Str) : Bool :=
  skipLine l || ((strip l == l) && (JVMOption.init l).isSome)

/-- Every line of the file is `cleanLine`. -/
def cleanFile (ls : List Str) : Bool := ls.all cleanLine

/-- Whether an output line is the serialization of an option with key `k`:
it is not a comment/blank line and parses to an option whose key is `k`. -/
def isKeyOption (k : Str) (line : Str) : Bool :=
  !skipLine line &&
    (match JVMOption.init line with
     | some o => decide (o.key = k)
     | none => false)

/-- Invariant of patch indexes built by the script: every entry is keyed by
its option's key, and the option re-parses from its own serialization. -/
def goodIndex (m : PatchIndex) : Prop :=
  ∀ e ∈ m, e.1 = e.2.key ∧ JVMOption.init (JVMOption.repr e.2) = some e.2

/-! ### Round-tripping of the option parser -/

theorem splitEq_ne_nil (l : Str) : splitEq l ≠ [] := by
  cases l with
  | nil => simp [splitEq]
  | cons c cs =>
    simp only [splitEq]
    split
    · simp
    · split <;> simp

theorem joinParts_splitEq (l : Str) : joinParts (splitEq l) = l := by
  induction l with
  | nil => rfl
  | cons c cs ih =>
    obtain ⟨p, ps, h⟩ : ∃ p ps, splitEq cs = p :: ps := by
      rcases hs : splitEq cs with _ | ⟨p, ps⟩
      · exact absurd hs (splitEq_ne_nil cs)
      · exact ⟨p, ps, rfl⟩
    rw [h] at ih
    by_cases hc : (c == '=') = true
    · have hsplit : splitEq (c :: cs) = [] :: p :: ps := by
        simp only [splitEq]
        rw [if_pos hc, h]
      rw [hsplit]
      have hj : joinParts ([] :: p :: ps) = '=' :: joinParts (p :: ps) := by
        simp only [joinParts, List.nil_append]
      rw [hj, ih, eq_of_beq hc]
    · have hsplit : splitEq (c :: cs) = (c :: p) :: ps := by
        simp only [splitEq]
        rw [if_neg hc, h]
      rw [hsplit]
      cases ps with
      | nil =>
        simp only [joinParts] at ih ⊢
        rw [ih]
      | cons q ps2 =>
        simp only [joinParts] at ih ⊢
        rw [List.cons_append, ih]

theorem startsWith_eq (p l : Str) (h : startsWith p l = true) : ∃ t, l = p ++ t := by
  induction p generalizing l with
  | nil => exact ⟨l, rfl⟩
  | cons c cs ih =>
    cases l with
    | nil => simp [startsWith] at h
    | cons d ds =>
      simp only [startsWith, Bool.and_eq_true, beq_iff_eq] at h
      obtain ⟨rfl, h2⟩ := h
      obtain ⟨t, rfl⟩ := ih ds h2
      exact ⟨t, rfl⟩

/-- Whenever the constructor succeeds, `key + sep + value` is the input line. -/
theorem init_roundTrip {l : Str} {o : JVMOption} (h : JVMOption.init l = some o) :
    JVMOption.repr o = l := by
  unfold JVMOption.init at h
  split at h
  · split at h
    · next k v heq =>
      cases h
      have hj := joinParts_splitEq l
      rw [heq] at hj
      simp only [joinParts] at hj
      simpa [JVMOption.repr] using hj
    · exact absurd h (by simp)
  · split at h
    · split at h
      · split at h
        · cases h
          simp [JVMOption.repr]
        · exact absurd h (by simp)
      · exact absurd h (by simp)
    · cases h
      simp [JVMOption.repr]

/-! ### C1: parsing a line that contains `=` -/

/-- **C1** (code bug).  The spec says a line containing `=` is split on the
*first* `=`, so that construction succeeds even when the value contains
further `=` characters.  The code runs `line.split("=")` with no `maxsplit`
and unpacks the result into two variables, so the header comment's own
example of a valid option, the `-agentlib:jdwp=...` line, raises a
`ValueError`: its split has 6 fields, and construction fails instead of
yielding an option. -/
theorem claim1_multi_eq_line_raises :
    JVMOption.init
      ("-agentlib:jdwp=transport=dt_socket,server=y,suspend=n,address=1414".toList)
      = none ∧
    (splitEq
      ("-agentlib:jdwp=transport=dt_socket,server=y,suspend=n,address=1414".toList)).length
      = 6 := by
  constructor <;> decide

/-! ### C5: serialization is lossless -/

/-- **C5 counterexample**.  The claim quantifies over *every* non-blank,
non-comment input line, but the line `-Xm` is non-blank, non-comment, and
fails to parse (the regex `(-Xm[a-z])(.*)` does not match), so there is no
serialization to round-trip. -/
theorem claim5_counterexample :
    skipLine ("-Xm".toList) = false ∧
    JVMOption.init (strip ("-Xm".toList)) = none := by
  constructor <;> decide

/-- **C5 (amended)**.  For every input line on which the `JVMOption`
constructor succeeds, re-serializing `key + separator + value` reproduces
the (stripped) input line exactly; serialization is lossless on every line
that parses, under all three parsing rules. -/
theorem claim5_serialization_lossless (l : Str) (o : JVMOption)
    (h : JVMOption.init l = some o) : JVMOption.repr o = l :=
  init_roundTrip h

theorem claim5_serialization_lossless_witness :
    JVMOption.init ("-Xms4G".toList) = some ⟨"-Xms".toList, "4G".toList, []⟩ ∧
    JVMOption.repr ⟨"-Xms".toList, "4G".toList, []⟩ = "-Xms4G".toList :=
  ⟨by decide, claim5_serialization_lossless _ _ (by decide)⟩

/-! ### C9: `-Xm` lines with a bad fourth character -/

/-- **C9** (confirmed).  A line with no `=` that starts with `-Xm` and whose
fourth character is missing or not a lowercase letter makes the constructor
fail (the regex match is `None` and subscripting it raises) rather than
produce an option. -/
theorem claim9_xm_bad_fourth_char (l : Str)
    (h1 : containsEq l = false)
    (h2 : startsWith ['-', 'X', 'm'] l = true)
    (h3 : ((l.get? 3).all fun c => !isLowerAZ c) = true) :
    JVMOption.init l = none := by
  obtain ⟨t, rfl⟩ := startsWith_eq _ _ h2
  cases t with
  | nil =>
    simp only [List.append_nil] at h1
    simp [JVMOption.init, h1, startsWith]
  | cons c3 t2 =>
    simp only [List.cons_append, List.nil_append] at h1 h3
    have hg : List.get? ('-' :: 'X' :: 'm' :: c3 :: t2) 3 = some c3 := rfl
    rw [hg] at h3
    have hc3 : isLowerAZ c3 = false := by
      have h4 : (!isLowerAZ c3) = true := h3
      simpa using h4
    simp [JVMOption.init, h1, startsWith, hc3]

theorem claim9_xm_bad_fourth_char_witness :
    containsEq ("-XmX1".toList) = false ∧
    startsWith ['-', 'X', 'm'] ("-XmX1".toList) = true ∧
    ((("-XmX1".toList).get? 3).all fun c => !isLowerAZ c) = true ∧
    JVMOption.init ("-XmX1".toList) = none :=
  ⟨by decide, by decide, by decide,
    claim9_xm_bad_fourth_char _ (by decide) (by decide) (by decide)⟩

/-! ### Association-list (dict) lemmas -/

theorem lookupAssoc_insertKey (m : PatchIndex) (k : Str) (o : JVMOption) (k2 : Str) :
    lookupAssoc (insertKey m k o) k2 =
      if k = k2 then some o else lookupAssoc m k2 := by
  induction m with
  | nil => simp [insertKey, lookupAssoc]
  | cons e rest ih =>
    by_cases he : e.1 = k
    · simp only [insertKey, if_pos he, lookupAssoc]
      by_cases hk : k = k2
      · simp [hk]
      · rw [if_neg hk, if_neg hk, if_neg (fun h2 => hk (he.symm.trans h2))]
    · simp only [insertKey, if_neg he, lookupAssoc]
      by_cases he2 : e.1 = k2
      · rw [if_pos he2, if_neg (fun hk => he (he2.trans hk.symm)), if_pos he2]
      · rw [if_neg he2, ih, if_neg he2]

theorem lookupAssoc_delKey_ne (m : PatchIndex) (k k2 : Str) (h : k ≠ k2) :
    lookupAssoc (delKey m k) k2 = lookupAssoc m k2 := by
  induction m with
  | nil => simp [delKey]
  | cons e rest ih =>
    by_cases he : e.1 = k
    · simp only [delKey, if_pos he, lookupAssoc]
      rw [if_neg (fun h2 => h (he.symm.trans h2))]
    · simp only [delKey, if_neg he, lookupAssoc]
      by_cases he2 : e.1 = k2
      · rw [if_pos he2, if_pos he2]
      · rw [if_neg he2, if_neg he2, ih]

theorem lookupAssoc_eq_none_iff {α : Type} (m : List (Str × α)) (k : Str) :
    lookupAssoc m k = none ↔ ∀ e ∈ m, e.1 ≠ k := by
  induction m with
  | nil =>
    constructor
    · intro _ e he
      exact absurd he (List.not_mem_nil e)
    · intro _
      rfl
  | cons e rest ih =>
    constructor
    · intro h e2 h2
      simp only [lookupAssoc] at h
      by_cases he : e.1 = k
      · rw [if_pos he] at h
        exact Option.noConfusion h
      · rw [if_neg he] at h
        rcases List.mem_cons.mp h2 with rfl | h2
        · exact he
        · exact (ih.mp h) e2 h2
    · intro h
      simp only [lookupAssoc]
      rw [if_neg (h e (List.mem_cons_self e rest))]
      exact ih.mpr (fun e2 h2 => h e2 (List.mem_cons_of_mem e h2))

theorem lookupAssoc_mem (m : PatchIndex) (k : Str) (v : JVMOption)
    (h : lookupAssoc m k = some v) : (k, v) ∈ m := by
  induction m with
  | nil => simp [lookupAssoc] at h
  | cons e rest ih =>
    simp only [lookupAssoc] at h
    by_cases he : e.1 = k
    · rw [if_pos he] at h
      cases h
      rw [← he]
      exact List.mem_cons_self _ _
    · rw [if_neg he] at h
      exact List.mem_cons_of_mem _ (ih h)

theorem delKey_sublist (m : PatchIndex) (k : Str) : List.Sublist (delKey m k) m := by
  induction m with
  | nil => simp [delKey]
  | cons e rest ih =>
    by_cases he : e.1 = k
    · simp only [delKey, if_pos he]
      exact List.sublist_cons_self e rest
    · simp only [delKey, if_neg he]
      exact ih.cons₂ e

theorem lookupAssoc_delKey_self (m : PatchIndex) (k : Str)
    (hnd : (m.map Prod.fst).Nodup) : lookupAssoc (delKey m k) k = none := by
  induction m with
  | nil => simp [delKey, lookupAssoc]
  | cons e rest ih =>
    simp only [List.map_cons, List.nodup_cons] at hnd
    by_cases he : e.1 = k
    · simp only [delKey, if_pos he]
      rw [lookupAssoc_eq_none_iff]
      intro e2 h2 hk
      exact hnd.1 (he ▸ hk ▸ (List.mem_map_of_mem Prod.fst h2))
    · simp only [delKey, if_neg he, lookupAssoc, if_neg he]
      exact ih hnd.2

theorem mem_delKey (m : PatchIndex) (k : Str) (e : Str × JVMOption)
    (h : e ∈ delKey m k) : e ∈ m :=
  (delKey_sublist m k).subset h

theorem mem_delKey_ne (m : PatchIndex) (k : Str)
    (hnd : (m.map Prod.fst).Nodup) (e : Str × JVMOption)
    (h : e ∈ delKey m k) : e.1 ≠ k := by
  induction m with
  | nil => simp [delKey] at h
  | cons e2 rest ih =>
    simp only [List.map_cons, List.nodup_cons] at hnd
    by_cases he : e2.1 = k
    · simp only [delKey, if_pos he] at h
      intro hk
      exact hnd.1 (he ▸ hk ▸ (List.mem_map_of_mem Prod.fst h))
    · simp only [delKey, if_neg he] at h
      rcases List.mem_cons.mp h with rfl | h2
      · exact he
      · exact ih hnd.2 h2

theorem mem_insertKey (m : PatchIndex) (k : Str) (o : JVMOption)
    (e : Str × JVMOption) (h : e ∈ insertKey m k o) : e = (k, o) ∨ e ∈ m := by
  induction m with
  | nil => simpa [insertKey] using h
  | cons e2 rest ih =>
    by_cases he : e2.1 = k
    · simp only [insertKey, if_pos he, List.mem_cons] at h
      rcases h with rfl | h
      · exact Or.inl rfl
      · exact Or.inr (List.mem_cons_of_mem _ h)
    · simp only [insertKey, if_neg he, List.mem_cons] at h
      rcases h with rfl | h
      · exact Or.inr (List.mem_cons_self _ _)
      · rcases ih h with h2 | h2
        · exact Or.inl h2
        · exact Or.inr (List.mem_cons_of_mem _ h2)

theorem insertKey_map_fst (m : PatchIndex) (k : Str) (o : JVMOption) :
    (insertKey m k o).map Prod.fst =
      if k ∈ m.map Prod.fst then m.map Prod.fst else m.map Prod.fst ++ [k] := by
  induction m with
  | nil => simp [insertKey]
  | cons e rest ih =>
    by_cases he : e.1 = k
    · have h1 : insertKey (e :: rest) k o = (k, o) :: rest := by
        simp only [insertKey, if_pos he]
      have h2 : k ∈ (e :: rest).map Prod.fst := by
        rw [List.map_cons, he]
        exact List.mem_cons_self _ _
      rw [h1, if_pos h2, List.map_cons, List.map_cons, he]
    · simp only [insertKey, if_neg he, List.map_cons, ih, List.mem_cons]
      by_cases hk : k ∈ rest.map Prod.fst
      · rw [if_pos hk, if_pos (Or.inr hk)]
      · rw [if_neg hk, if_neg (fun h => by
          rcases h with h | h
          · exact he h.symm
          · exact hk h), List.cons_append]

theorem insertKey_nodup (m : PatchIndex) (k : Str) (o : JVMOption)
    (hnd : (m.map Prod.fst).Nodup) : ((insertKey m k o).map Prod.fst).Nodup := by
  rw [insertKey_map_fst]
  by_cases hk : k ∈ m.map Prod.fst
  · rwa [if_pos hk]
  · rw [if_neg hk]
    rw [List.nodup_append]
    refine ⟨hnd, List.nodup_singleton k, ?_⟩
    intro a ha hb
    rw [List.mem_singleton] at hb
    exact hk (hb ▸ ha)

theorem buildPatch_nodup (ls : List Str) (acc m : PatchIndex)
    (hnd : (acc.map Prod.fst).Nodup) (h : buildPatch ls acc = some m) :
    (m.map Prod.fst).Nodup := by
  induction ls generalizing acc with
  | nil => cases h; exact hnd
  | cons l rest ih =>
    simp only [buildPatch] at h
    by_cases hs : skipLine l = true
    · rw [if_pos hs] at h
      exact ih acc hnd h
    · rw [if_neg hs] at h
      rcases ho : JVMOption.init (strip l) with _ | o
      · rw [ho] at h; cases h
      · rw [ho] at h
        exact ih _ (insertKey_nodup acc o.key o hnd) h

theorem buildPatch_good (ls : List Str) (acc m : PatchIndex)
    (hg : goodIndex acc) (h : buildPatch ls acc = some m) : goodIndex m := by
  induction ls generalizing acc with
  | nil => cases h; exact hg
  | cons l rest ih =>
    simp only [buildPatch] at h
    by_cases hs : skipLine l = true
    · rw [if_pos hs] at h
      exact ih acc hg h
    · rw [if_neg hs] at h
      rcases ho : JVMOption.init (strip l) with _ | o
      · rw [ho] at h; cases h
      · rw [ho] at h
        refine ih _ ?_ h
        intro e he
        rcases mem_insertKey _ _ _ _ he with rfl | he2
        · exact ⟨rfl, by rw [init_roundTrip ho]; exact ho⟩
        · exact hg e he2

/-! ### C7: last-writer-wins indexing of the patch file -/

theorem buildPatch_lookup (ls : List Str) (acc m : PatchIndex) (k : Str)
    (h : buildPatch ls acc = some m) :
    lookupAssoc m k =
      match lastPatchOption ls k with
      | some o => some o
      | none => lookupAssoc acc k := by
  induction ls generalizing acc with
  | nil => cases h; simp [lastPatchOption]
  | cons l rest ih =>
    simp only [buildPatch] at h
    simp only [lastPatchOption]
    by_cases hs : skipLine l = true
    · rw [if_pos hs] at h
      rw [ih acc h, if_pos hs]
      cases lastPatchOption rest k <;> rfl
    · rw [if_neg hs] at h
      rw [if_neg hs]
      rcases ho : JVMOption.init (strip l) with _ | o
      · rw [ho] at h; cases h
      · rw [ho] at h
        rw [ih _ h]
        cases h2 : lastPatchOption rest k with
        | some o2 => rfl
        | none =>
          simp only
          rw [lookupAssoc_insertKey]
          by_cases hk : o.key = k
          · rw [if_pos hk, if_pos hk]
          · rw [if_neg hk, if_neg hk]

/-- **C7** (confirmed).  The patch-file indexing loop is last-writer-wins per
key: when the same key occurs on several patch lines, the index maps it to
the option parsed from the *last* such line, and the merge driver reads the
patch file only through this index, so the merged output reflects only the
last occurrence. -/
theorem claim7_patch_last_writer_wins (patchLines : List Str) (m : PatchIndex)
    (h : buildPatch patchLines [] = some m) :
    (∀ base, merge base patchLines = mergeWithIndex base m) ∧
    (∀ k, lookupAssoc m k = lastPatchOption patchLines k) := by
  constructor
  · intro base
    simp [merge, h]
  · intro k
    rw [buildPatch_lookup patchLines [] m k h]
    cases h2 : lastPatchOption patchLines k <;> simp [lookupAssoc]

theorem claim7_witness :
    buildPatch ["-Xmx4G".toList, "-Xmx8G".toList] [] =
      some [("-Xmx".toList, ⟨"-Xmx".toList, "8G".toList, []⟩)] ∧
    merge ["-Xmx4G".toList] ["-Xmx4G".toList, "-Xmx8G".toList] =
      mergeWithIndex ["-Xmx4G".toList]
        [("-Xmx".toList, ⟨"-Xmx".toList, "8G".toList, []⟩)] ∧
    lookupAssoc [("-Xmx".toList, ⟨"-Xmx".toList, "8G".toList, []⟩)] ("-Xmx".toList) =
      lastPatchOption ["-Xmx4G".toList, "-Xmx8G".toList] ("-Xmx".toList) :=
  ⟨by decide,
   (claim7_patch_last_writer_wins _ _ (by decide)).1 _,
   (claim7_patch_last_writer_wins _ _ (by decide)).2 _⟩

/-! ### C6: absent version exits with code 1 and writes nothing -/

/-- **C6** (confirmed).  When the version-aware entry point is invoked with
a version that the catalog does not define, the run ends with exit code 1
and no output file is created or modified.  (In the source the found path
also halts with exit code 1 before any write, because of the unconditional
`print(args); sys.exit(1)` left in the unfinished script.) -/
theorem claim6_absent_version_exits_1 (catalog : List (Str × CatalogEntry))
    (version : Str) (h : lookupAssoc catalog version = none) :
    (versionAwareRun catalog version).exitCode = 1 ∧
    (versionAwareRun catalog version).writes = [] := by
  unfold versionAwareRun
  split
  · exact ⟨rfl, rfl⟩
  · rw [h]
    exact ⟨rfl, rfl⟩

theorem claim6_absent_version_exits_1_witness :
    lookupAssoc [("3.0".toList, CatalogEntry.mk ("/a".toList)),
                 ("3.11".toList, CatalogEntry.mk ("/b".toList))] ("4.0".toList) = none ∧
    (versionAwareRun [("3.0".toList, CatalogEntry.mk ("/a".toList)),
                      ("3.11".toList, CatalogEntry.mk ("/b".toList))]
        ("4.0".toList)).exitCode = 1 ∧
    (versionAwareRun [("3.0".toList, CatalogEntry.mk ("/a".toList)),
                      ("3.11".toList, CatalogEntry.mk ("/b".toList))]
        ("4.0".toList)).writes = [] :=
  ⟨by decide,
   (claim6_absent_version_exits_1 _ _ (by decide)).1,
   (claim6_absent_version_exits_1 _ _ (by decide)).2⟩

/-! ### Merge-scan lemmas -/

theorem mergeScan_cons_skip_fwd {l : Str} {rest : List Str} {m : PatchIndex}
    {t : List Str} {m2 : PatchIndex} (hs : skipLine l = true)
    (h : mergeScan rest m = some (t, m2)) :
    mergeScan (l :: rest) m = some (l :: t, m2) := by
  simp only [mergeScan, if_pos hs, h]

theorem mergeScan_cons_skip {l : Str} {rest : List Str} {m : PatchIndex}
    {out : List Str} {m2 : PatchIndex} (hs : skipLine l = true)
    (h : mergeScan (l :: rest) m = some (out, m2)) :
    ∃ t, mergeScan rest m = some (t, m2) ∧ out = l :: t := by
  simp only [mergeScan, if_pos hs] at h
  rcases h2 : mergeScan rest m with _ | ⟨t, m3⟩
  · rw [h2] at h
    exact Option.noConfusion h
  · rw [h2] at h
    simp only [Option.some.injEq, Prod.mk.injEq] at h
    exact ⟨t, by rw [h.2], h.1.symm⟩

theorem mergeScan_cons_fail {l : Str} {rest : List Str} {m : PatchIndex}
    (hs : skipLine l = false) (ho : JVMOption.init (strip l) = none) :
    mergeScan (l :: rest) m = none := by
  have hns : ¬ (skipLine l = true) := by rw [hs]; exact Bool.false_ne_true
  simp only [mergeScan, if_neg hns, ho]

theorem mergeScan_cons_patched_fwd {l : Str} {rest : List Str} {m : PatchIndex}
    {t : List Str} {m2 : PatchIndex} {o p : JVMOption} (hs : skipLine l = false)
    (ho : JVMOption.init (strip l) = some o) (hp : lookupAssoc m o.key = some p)
    (h : mergeScan rest (delKey m o.key) = some (t, m2)) :
    mergeScan (l :: rest) m = some (JVMOption.repr p :: t, m2) := by
  have hns : ¬ (skipLine l = true) := by rw [hs]; exact Bool.false_ne_true
  simp only [mergeScan, if_neg hns, ho, hp, h]

theorem mergeScan_cons_kept_fwd {l : Str} {rest : List Str} {m : PatchIndex}
    {t : List Str} {m2 : PatchIndex} {o : JVMOption} (hs : skipLine l = false)
    (ho : JVMOption.init (strip l) = some o) (hp : lookupAssoc m o.key = none)
    (h : mergeScan rest m = some (t, m2)) :
    mergeScan (l :: rest) m = some (JVMOption.repr o :: t, m2) := by
  have hns : ¬ (skipLine l = true) := by rw [hs]; exact Bool.false_ne_true
  simp only [mergeScan, if_neg hns, ho, hp, h]

theorem mergeScan_cons_opt {l : Str} {rest : List Str} {m : PatchIndex}
    {out : List Str} {m2 : PatchIndex} {o : JVMOption} (hs : skipLine l = false)
    (ho : JVMOption.init (strip l) = some o)
    (h : mergeScan (l :: rest) m = some (out, m2)) :
    (∃ p t, lookupAssoc m o.key = some p ∧
        mergeScan rest (delKey m o.key) = some (t, m2) ∧
        out = JVMOption.repr p :: t) ∨
    (lookupAssoc m o.key = none ∧
        ∃ t, mergeScan rest m = some (t, m2) ∧ out = JVMOption.repr o :: t) := by
  have hns : ¬ (skipLine l = true) := by rw [hs]; exact Bool.false_ne_true
  simp only [mergeScan, if_neg hns, ho] at h
  rcases hp : lookupAssoc m o.key with _ | p
  · rw [hp] at h
    rcases h2 : mergeScan rest m with _ | ⟨t, m3⟩
    · rw [h2] at h
      exact Option.noConfusion h
    · rw [h2] at h
      simp only [Option.some.injEq, Prod.mk.injEq] at h
      exact Or.inr ⟨rfl, t, by rw [h.2], h.1.symm⟩
  · rw [hp] at h
    rcases h2 : mergeScan rest (delKey m o.key) with _ | ⟨t, m3⟩
    · rw [h2] at h
      exact Option.noConfusion h
    · rw [h2] at h
      simp only [Option.some.injEq, Prod.mk.injEq] at h
      exact Or.inl ⟨p, t, rfl, by rw [h.2], h.1.symm⟩

theorem mergeScan_nil_inv {m : PatchIndex} {out : List Str} {m2 : PatchIndex}
    (h : mergeScan [] m = some (out, m2)) : out = [] ∧ m2 = m := by
  simp only [mergeScan, Option.some.injEq, Prod.mk.injEq] at h
  exact ⟨h.1.symm, h.2.symm⟩

theorem mergeScan_length (b : List Str) : ∀ (m : PatchIndex) (out : List Str)
    (m2 : PatchIndex), mergeScan b m = some (out, m2) → out.length = b.length := by
  induction b with
  | nil =>
    intro m out m2 h
    rw [(mergeScan_nil_inv h).1]
  | cons l rest ih =>
    intro m out m2 h
    by_cases hs : skipLine l = true
    · obtain ⟨t, h2, rfl⟩ := mergeScan_cons_skip hs h
      simp [ih _ _ _ h2]
    · rw [Bool.not_eq_true] at hs
      rcases ho : JVMOption.init (strip l) with _ | o
      · rw [mergeScan_cons_fail hs ho] at h
        exact Option.noConfusion h
      · rcases mergeScan_cons_opt hs ho h with ⟨p, t, hp, h2, rfl⟩ | ⟨hp, t, h2, rfl⟩ <;>
          simp [ih _ _ _ h2]

theorem mergeScan_append (a : List Str) : ∀ (b : List Str) (m : PatchIndex)
    (out : List Str) (m2 : PatchIndex), mergeScan (a ++ b) m = some (out, m2) →
    ∃ out1 m1 out2, mergeScan a m = some (out1, m1) ∧
      mergeScan b m1 = some (out2, m2) ∧ out = out1 ++ out2 := by
  induction a with
  | nil =>
    intro b m out m2 h
    exact ⟨[], m, out, rfl, h, rfl⟩
  | cons l rest ih =>
    intro b m out m2 h
    rw [List.cons_append] at h
    by_cases hs : skipLine l = true
    · obtain ⟨t, h2, rfl⟩ := mergeScan_cons_skip hs h
      obtain ⟨out1, m1, out2, ha, hb, rfl⟩ := ih b m t m2 h2
      exact ⟨l :: out1, m1, out2, mergeScan_cons_skip_fwd hs ha, hb, rfl⟩
    · rw [Bool.not_eq_true] at hs
      rcases ho : JVMOption.init (strip l) with _ | o
      · rw [mergeScan_cons_fail hs ho] at h
        exact Option.noConfusion h
      · rcases mergeScan_cons_opt hs ho h with ⟨p, t, hp, h2, rfl⟩ | ⟨hp, t, h2, rfl⟩
        · obtain ⟨out1, m1, out2, ha, hb, rfl⟩ := ih b _ t m2 h2
          exact ⟨JVMOption.repr p :: out1, m1, out2,
            mergeScan_cons_patched_fwd hs ho hp ha, hb, rfl⟩
        · obtain ⟨out1, m1, out2, ha, hb, rfl⟩ := ih b m t m2 h2
          exact ⟨JVMOption.repr o :: out1, m1, out2,
            mergeScan_cons_kept_fwd hs ho hp ha, hb, rfl⟩

theorem mergeScan_index_sublist (b : List Str) : ∀ (m : PatchIndex)
    (out : List Str) (m2 : PatchIndex), mergeScan b m = some (out, m2) →
    List.Sublist m2 m := by
  induction b with
  | nil =>
    intro m out m2 h
    rw [(mergeScan_nil_inv h).2]
  | cons l rest ih =>
    intro m out m2 h
    by_cases hs : skipLine l = true
    · obtain ⟨t, h2, rfl⟩ := mergeScan_cons_skip hs h
      exact ih _ _ _ h2
    · rw [Bool.not_eq_true] at hs
      rcases ho : JVMOption.init (strip l) with _ | o
      · rw [mergeScan_cons_fail hs ho] at h
        exact Option.noConfusion h
      · rcases mergeScan_cons_opt hs ho h with ⟨p, t, hp, h2, rfl⟩ | ⟨hp, t, h2, rfl⟩
        · exact (ih _ _ _ h2).trans (delKey_sublist m o.key)
        · exact ih _ _ _ h2

theorem mergeScan_preserve_lookup (b : List Str) : ∀ (m : PatchIndex)
    (out : List Str) (m2 : PatchIndex) (k : Str),
    (∀ l ∈ b, skipLine l = true ∨ keyOfLine l ≠ some k) →
    mergeScan b m = some (out, m2) → lookupAssoc m2 k = lookupAssoc m k := by
  induction b with
  | nil =>
    intro m out m2 k _ h
    rw [(mergeScan_nil_inv h).2]
  | cons l rest ih =>
    intro m out m2 k hb h
    by_cases hs : skipLine l = true
    · obtain ⟨t, h2, rfl⟩ := mergeScan_cons_skip hs h
      exact ih _ _ _ _ (fun l2 h2 => hb l2 (List.mem_cons_of_mem l h2)) h2
    · rw [Bool.not_eq_true] at hs
      rcases ho : JVMOption.init (strip l) with _ | o
      · rw [mergeScan_cons_fail hs ho] at h
        exact Option.noConfusion h
      · have hk : o.key ≠ k := by
          rcases hb l (List.mem_cons_self l rest) with h3 | h3
          · rw [hs] at h3
            exact Bool.noConfusion h3
          · intro hkk
            apply h3
            rw [keyOfLine, ho]
            exact congrArg some hkk
        rcases mergeScan_cons_opt hs ho h with ⟨p, t, hp, h2, rfl⟩ | ⟨hp, t, h2, rfl⟩
        · rw [ih _ _ _ _ (fun l2 h3 => hb l2 (List.mem_cons_of_mem l h3)) h2]
          exact lookupAssoc_delKey_ne m o.key k hk
        · exact ih _ _ _ _ (fun l2 h3 => hb l2 (List.mem_cons_of_mem l h3)) h2

theorem mergeScan_get (b : List Str) : ∀ (m : PatchIndex) (out : List Str)
    (m2 : PatchIndex), mergeScan b m = some (out, m2) →
    ∀ i li, b.get? i = some li → skipLine li = true → out.get? i = some li := by
  induction b with
  | nil =>
    intro m out m2 h i li hi
    rw [List.get?_nil] at hi
    exact absurd hi (by simp)
  | cons l rest ih =>
    intro m out m2 h i li hi hski
    by_cases hs : skipLine l = true
    · obtain ⟨t, h2, rfl⟩ := mergeScan_cons_skip hs h
      cases i with
      | zero => exact hi
      | succ i => exact ih _ _ _ h2 i li hi hski
    · rw [Bool.not_eq_true] at hs
      rcases ho : JVMOption.init (strip l) with _ | o
      · rw [mergeScan_cons_fail hs ho] at h
        exact Option.noConfusion h
      · rcases mergeScan_cons_opt hs ho h with ⟨p, t, hp, h2, rfl⟩ | ⟨hp, t, h2, rfl⟩
        · cases i with
          | zero =>
            cases hi
            rw [hs] at hski
            exact Bool.noConfusion hski
          | succ i => exact ih _ _ _ h2 i li hi hski
        · cases i with
          | zero =>
            cases hi
            rw [hs] at hski
            exact Bool.noConfusion hski
          | succ i => exact ih _ _ _ h2 i li hi hski

/-! ### C8: comment and blank lines -/

theorem buildPatch_skip_mid (p1 : List Str) : ∀ (c : Str) (p2 : List Str)
    (acc : PatchIndex), skipLine c = true →
    buildPatch (p1 ++ c :: p2) acc = buildPatch (p1 ++ p2) acc := by
  induction p1 with
  | nil =>
    intro c p2 acc hc
    simp only [List.nil_append, buildPatch, if_pos hc]
  | cons l rest ih =>
    intro c p2 acc hc
    simp only [List.cons_append, buildPatch]
    by_cases hs : skipLine l = true
    · rw [if_pos hs, if_pos hs]
      exact ih _ _ _ hc
    · rw [if_neg hs, if_neg hs]
      rcases ho : JVMOption.init (strip l) with _ | o
      · simp only [ho]
      · simp only [ho]
        exact ih _ _ _ hc

/-- **C8** (confirmed).  Comment (`#`-prefixed) and blank lines of the base
file are copied verbatim at their original position (the scan writes exactly
one output line per base line), and comment/blank lines of the patch file
are ignored entirely: deleting one from the patch file leaves the merged
output unchanged. -/
theorem claim8_comment_blank_passthrough (base patchLines out : List Str)
    (hm : merge base patchLines = some out) :
    (∀ i li, base.get? i = some li → skipLine li = true → out.get? i = some li) ∧
    (∀ p1 p2 c, skipLine c = true → patchLines = p1 ++ c :: p2 →
      merge base (p1 ++ p2) = some out) := by
  constructor
  · intro i li hi hski
    unfold merge at hm
    rcases hbp : buildPatch patchLines [] with _ | m
    · rw [hbp] at hm
      exact Option.noConfusion hm
    · rw [hbp] at hm
      have hm2 : mergeWithIndex base m = some out := hm
      unfold mergeWithIndex at hm2
      rcases hsc : mergeScan base m with _ | ⟨sOut, m2⟩
      · rw [hsc] at hm2
        exact Option.noConfusion hm2
      · rw [hsc] at hm2
        have hm3 : some (sOut ++ m2.map (fun e => JVMOption.repr e.2)) = some out := hm2
        have hm4 : sOut ++ m2.map (fun e => JVMOption.repr e.2) = out :=
          Option.some.inj hm3
        have hget := mergeScan_get base m sOut m2 hsc i li hi hski
        obtain ⟨hlt, -⟩ := List.get?_eq_some.mp hget
        rw [← hm4, List.get?_append hlt, hget]
  · intro p1 p2 c hc hp
    rw [hp] at hm
    unfold merge at hm ⊢
    rw [buildPatch_skip_mid p1 c p2 [] hc] at hm
    exact hm

theorem claim8_witness :
    merge ["# a".toList, "-Xms4G".toList] ["# b".toList, "-Xms8G".toList] =
      some ["# a".toList, "-Xms8G".toList] ∧
    skipLine ("# a".toList) = true ∧
    (["# a".toList, "-Xms8G".toList].get? 0 = some ("# a".toList)) ∧
    skipLine ("# b".toList) = true ∧
    merge ["# a".toList, "-Xms4G".toList] ["-Xms8G".toList] =
      some ["# a".toList, "-Xms8G".toList] :=
  ⟨by decide, by decide,
   (claim8_comment_blank_passthrough ["# a".toList, "-Xms4G".toList]
      ["# b".toList, "-Xms8G".toList] ["# a".toList, "-Xms8G".toList]
      (by decide)).1 0 ("# a".toList) (by decide) (by decide),
   by decide,
   (claim8_comment_blank_passthrough ["# a".toList, "-Xms4G".toList]
      ["# b".toList, "-Xms8G".toList] ["# a".toList, "-Xms8G".toList]
      (by decide)).2 [] ["-Xms8G".toList] ("# b".toList) (by decide) rfl⟩

/-! ### C10: duplicate keys in the base file -/

theorem lookupAssoc_delKey_none (m : PatchIndex) (k k2 : Str)
    (h : lookupAssoc m k = none) : lookupAssoc (delKey m k2) k = none := by
  rw [lookupAssoc_eq_none_iff] at h ⊢
  exact fun e he => h e ((delKey_sublist m k2).subset he)

theorem keyOfLine_eq {l : Str} {o : JVMOption}
    (ho : JVMOption.init (strip l) = some o) : keyOfLine l = some o.key := by
  rw [keyOfLine, ho]
  rfl

/-- Once key `k` is absent from the index, every key-`k` base option line is
written with its own serialization (deleted entries are never re-inserted). -/
theorem mergeScan_keyGone (k : Str) (b : List Str) : ∀ (m : PatchIndex)
    (out : List Str) (m2 : PatchIndex),
    mergeScan b m = some (out, m2) → lookupAssoc m k = none →
    ∀ i li oi, b.get? i = some li → skipLine li = false →
      JVMOption.init (strip li) = some oi → oi.key = k →
      out.get? i = some (JVMOption.repr oi) := by
  induction b with
  | nil =>
    intro m out m2 _ _ i li oi hi
    rw [List.get?_nil] at hi
    exact absurd hi (by simp)
  | cons l rest ih =>
    intro m out m2 h hk i li oi hi hsli hoi hkey
    by_cases hs : skipLine l = true
    · obtain ⟨t, h2, rfl⟩ := mergeScan_cons_skip hs h
      cases i with
      | zero =>
        have hi2 : some l = some li := hi
        have hli : l = li := Option.some.inj hi2
        rw [← hli, hs] at hsli
        exact Bool.noConfusion hsli
      | succ j => exact ih m t m2 h2 hk j li oi hi hsli hoi hkey
    · rw [Bool.not_eq_true] at hs
      rcases ho : JVMOption.init (strip l) with _ | o
      · rw [mergeScan_cons_fail hs ho] at h
        exact Option.noConfusion h
      · rcases mergeScan_cons_opt hs ho h with ⟨p2, t, hp2, h2, rfl⟩ | ⟨hpn, t, h2, rfl⟩
        · cases i with
          | zero =>
            have hi2 : some l = some li := hi
            have hli : l = li := Option.some.inj hi2
            subst hli
            rw [ho] at hoi
            have hoo : o = oi := Option.some.inj hoi
            subst hoo
            rw [hkey, hk] at hp2
            exact Option.noConfusion hp2
          | succ j =>
            exact ih _ t m2 h2 (lookupAssoc_delKey_none m k o.key hk)
              j li oi hi hsli hoi hkey
        · cases i with
          | zero =>
            have hi2 : some l = some li := hi
            have hli : l = li := Option.some.inj hi2
            subst hli
            rw [ho] at hoi
            have hoo : o = oi := Option.some.inj hoi
            subst hoo
            rfl
          | succ j => exact ih m t m2 h2 hk j li oi hi hsli hoi hkey

/-- While key `k` is still mapped to `p` in the index, the first key-`k`
base option line is written as `p`'s serialization, and every key-`k` line
preceded by another key-`k` line is written with its own serialization. -/
theorem mergeScan_keyLive (k : Str) (p : JVMOption) (b : List Str) :
    ∀ (m : PatchIndex) (out : List Str) (m2 : PatchIndex),
    mergeScan b m = some (out, m2) → lookupAssoc m k = some p →
    (m.map Prod.fst).Nodup →
    ∀ i li oi, b.get? i = some li → skipLine li = false →
      JVMOption.init (strip li) = some oi → oi.key = k →
      ((∀ j lj, j < i → b.get? j = some lj →
          skipLine lj = true ∨ keyOfLine lj ≠ some k) →
        out.get? i = some (JVMOption.repr p)) ∧
      ((∃ j lj, j < i ∧ b.get? j = some lj ∧ skipLine lj = false ∧
          keyOfLine lj = some k) →
        out.get? i = some (JVMOption.repr oi)) := by
  induction b with
  | nil =>
    intro m out m2 _ _ _ i li oi hi
    rw [List.get?_nil] at hi
    exact absurd hi (by simp)
  | cons l rest ih =>
    intro m out m2 h hk hnd i li oi hi hsli hoi hkey
    by_cases hs : skipLine l = true
    · obtain ⟨t, h2, rfl⟩ := mergeScan_cons_skip hs h
      cases i with
      | zero =>
        have hi2 : some l = some li := hi
        have hli : l = li := Option.some.inj hi2
        rw [← hli, hs] at hsli
        exact Bool.noConfusion hsli
      | succ j =>
        have ihj := ih m t m2 h2 hk hnd j li oi hi hsli hoi hkey
        constructor
        · intro hnone
          exact ihj.1 (fun j2 lj hj2 hlj =>
            hnone (j2 + 1) lj (Nat.succ_lt_succ hj2) hlj)
        · rintro ⟨j2, lj, hj2, hlj, hslj, hklj⟩
          cases j2 with
          | zero =>
            have hlj2 : some l = some lj := hlj
            have hll : l = lj := Option.some.inj hlj2
            rw [← hll, hs] at hslj
            exact Bool.noConfusion hslj
          | succ j3 =>
            exact ihj.2 ⟨j3, lj, Nat.lt_of_succ_lt_succ hj2, hlj, hslj, hklj⟩
    · rw [Bool.not_eq_true] at hs
      rcases ho : JVMOption.init (strip l) with _ | o
      · rw [mergeScan_cons_fail hs ho] at h
        exact Option.noConfusion h
      · rcases mergeScan_cons_opt hs ho h with ⟨p2, t, hp2, h2, rfl⟩ | ⟨hpn, t, h2, rfl⟩
        · cases i with
          | zero =>
            have hi2 : some l = some li := hi
            have hli : l = li := Option.some.inj hi2
            subst hli
            rw [ho] at hoi
            have hoo : o = oi := Option.some.inj hoi
            subst hoo
            rw [hkey, hk] at hp2
            have hpp : p = p2 := Option.some.inj hp2
            subst hpp
            constructor
            · intro _
              rfl
            · rintro ⟨j2, lj, hj2, -, -, -⟩
              exact absurd hj2 (Nat.not_lt_zero j2)
          | succ j =>
            by_cases hok : o.key = k
            · subst hok
              have hdel : lookupAssoc (delKey m o.key) o.key = none :=
                lookupAssoc_delKey_self m o.key hnd
              constructor
              · intro hnone
                exfalso
                rcases hnone 0 l (Nat.succ_pos j) rfl with h3 | h3
                · rw [hs] at h3
                  exact Bool.noConfusion h3
                · exact h3 (keyOfLine_eq ho)
              · intro _
                exact mergeScan_keyGone o.key rest (delKey m o.key) t m2 h2
                  hdel j li oi hi hsli hoi hkey
            · have hk2 : lookupAssoc (delKey m o.key) k = some p := by
                rw [lookupAssoc_delKey_ne m o.key k hok]
                exact hk
              have hnd2 : ((delKey m o.key).map Prod.fst).Nodup :=
                hnd.sublist ((delKey_sublist m o.key).map Prod.fst)
              have ihj := ih (delKey m o.key) t m2 h2 hk2 hnd2 j li oi hi hsli hoi hkey
              constructor
              · intro hnone
                exact ihj.1 (fun j2 lj hj2 hlj =>
                  hnone (j2 + 1) lj (Nat.succ_lt_succ hj2) hlj)
              · rintro ⟨j2, lj, hj2, hlj, hslj, hklj⟩
                cases j2 with
                | zero =>
                  have hlj2 : some l = some lj := hlj
                  have hll : l = lj := Option.some.inj hlj2
                  rw [← hll, keyOfLine_eq ho] at hklj
                  exact absurd (Option.some.inj hklj) hok
                | succ j3 =>
                  exact ihj.2 ⟨j3, lj, Nat.lt_of_succ_lt_succ hj2, hlj, hslj, hklj⟩
        · have hok : o.key ≠ k := fun h3 => by
            rw [h3, hk] at hpn
            exact Option.noConfusion hpn
          cases i with
          | zero =>
            have hi2 : some l = some li := hi
            have hli : l = li := Option.some.inj hi2
            subst hli
            rw [ho] at hoi
            have hoo : o = oi := Option.some.inj hoi
            subst hoo
            exact absurd hkey hok
          | succ j =>
            have ihj := ih m t m2 h2 hk hnd j li oi hi hsli hoi hkey
            constructor
            · intro hnone
              exact ihj.1 (fun j2 lj hj2 hlj =>
                hnone (j2 + 1) lj (Nat.succ_lt_succ hj2) hlj)
            · rintro ⟨j2, lj, hj2, hlj, hslj, hklj⟩
              cases j2 with
              | zero =>
                have hlj2 : some l = some lj := hlj
                have hll : l = lj := Option.some.inj hlj2
                rw [← hll, keyOfLine_eq ho] at hklj
                exact absurd (Option.some.inj hklj) hok
              | succ j3 =>
                exact ihj.2 ⟨j3, lj, Nat.lt_of_succ_lt_succ hj2, hlj, hslj, hklj⟩

/-- **C10** (confirmed).  When a key `k` of the patch mapping occurs on
several base option lines, only the first base occurrence is replaced by the
patch's serialized option — the entry is deleted from the mapping when first
consumed — and *every* later base occurrence of the same key, however many
there are, is written with the base's own value: for every position `i` of
the base file holding a key-`k` option line, if no earlier position holds a
key-`k` option line the output at `i` is the patch's serialization, and if
some earlier position does, the output at `i` is that base line's own
serialization. -/
theorem claim10_first_base_occurrence_only (patchLines base : List Str)
    (k : Str) (p : JVMOption) (m : PatchIndex) (out : List Str)
    (hbp : buildPatch patchLines [] = some m)
    (hp : lookupAssoc m k = some p)
    (hm : merge base patchLines = some out) :
    ∀ i li oi, base.get? i = some li → skipLine li = false →
      JVMOption.init (strip li) = some oi → oi.key = k →
      ((∀ j lj, j < i → base.get? j = some lj →
          skipLine lj = true ∨ keyOfLine lj ≠ some k) →
        out.get? i = some (JVMOption.repr p)) ∧
      ((∃ j lj, j < i ∧ base.get? j = some lj ∧ skipLine lj = false ∧
          keyOfLine lj = some k) →
        out.get? i = some (JVMOption.repr oi)) := by
  intro i li oi hi hsli hoi hkey
  unfold merge at hm
  rw [hbp] at hm
  have hm2 : mergeWithIndex base m = some out := hm
  unfold mergeWithIndex at hm2
  rcases hsc : mergeScan base m with _ | ⟨sOut, m2⟩
  · rw [hsc] at hm2
    exact Option.noConfusion hm2
  · rw [hsc] at hm2
    have hm3 : some (sOut ++ m2.map (fun e => JVMOption.repr e.2)) = some out := hm2
    have hout : sOut ++ m2.map (fun e => JVMOption.repr e.2) = out :=
      Option.some.inj hm3
    have hnd : (m.map Prod.fst).Nodup :=
      buildPatch_nodup patchLines [] m List.nodup_nil hbp
    have hK := mergeScan_keyLive k p base m sOut m2 hsc hp hnd i li oi hi hsli hoi hkey
    have hlt : i < sOut.length := by
      rw [mergeScan_length base m sOut m2 hsc]
      exact (List.get?_eq_some.mp hi).1
    constructor
    · intro hnone
      rw [← hout, List.get?_append hlt]
      exact hK.1 hnone
    · intro hex
      rw [← hout, List.get?_append hlt]
      exact hK.2 hex

theorem claim10_witness :
    merge ["-Xmx4G".toList, "-Xmx2G".toList, "-Xmx1G".toList] ["-Xmx8G".toList] =
      some ["-Xmx8G".toList, "-Xmx2G".toList, "-Xmx1G".toList] ∧
    (["-Xmx8G".toList, "-Xmx2G".toList, "-Xmx1G".toList].get? 0 =
      some (JVMOption.repr ⟨"-Xmx".toList, "8G".toList, []⟩)) ∧
    (["-Xmx8G".toList, "-Xmx2G".toList, "-Xmx1G".toList].get? 1 =
      some (JVMOption.repr ⟨"-Xmx".toList, "2G".toList, []⟩)) ∧
    (["-Xmx8G".toList, "-Xmx2G".toList, "-Xmx1G".toList].get? 2 =
      some (JVMOption.repr ⟨"-Xmx".toList, "1G".toList, []⟩)) :=
  ⟨by decide,
   (claim10_first_base_occurrence_only ["-Xmx8G".toList]
      ["-Xmx4G".toList, "-Xmx2G".toList, "-Xmx1G".toList]
      ("-Xmx".toList) ⟨"-Xmx".toList, "8G".toList, []⟩
      [("-Xmx".toList, ⟨"-Xmx".toList, "8G".toList, []⟩)]
      ["-Xmx8G".toList, "-Xmx2G".toList, "-Xmx1G".toList]
      (by decide) (by decide) (by decide)
      0 ("-Xmx4G".toList) ⟨"-Xmx".toList, "4G".toList, []⟩
      (by decide) (by decide) (by decide) (by decide)).1
     (fun j lj hj _ => absurd hj (Nat.not_lt_zero j)),
   (claim10_first_base_occurrence_only ["-Xmx8G".toList]
      ["-Xmx4G".toList, "-Xmx2G".toList, "-Xmx1G".toList]
      ("-Xmx".toList) ⟨"-Xmx".toList, "8G".toList, []⟩
      [("-Xmx".toList, ⟨"-Xmx".toList, "8G".toList, []⟩)]
      ["-Xmx8G".toList, "-Xmx2G".toList, "-Xmx1G".toList]
      (by decide) (by decide) (by decide)
      1 ("-Xmx2G".toList) ⟨"-Xmx".toList, "2G".toList, []⟩
      (by decide) (by decide) (by decide) (by decide)).2
     ⟨0, "-Xmx4G".toList, by decide, by decide, by decide, by decide⟩,
   (claim10_first_base_occurrence_only ["-Xmx8G".toList]
      ["-Xmx4G".toList, "-Xmx2G".toList, "-Xmx1G".toList]
      ("-Xmx".toList) ⟨"-Xmx".toList, "8G".toList, []⟩
      [("-Xmx".toList, ⟨"-Xmx".toList, "8G".toList, []⟩)]
      ["-Xmx8G".toList, "-Xmx2G".toList, "-Xmx1G".toList]
      (by decide) (by decide) (by decide)
      2 ("-Xmx1G".toList) ⟨"-Xmx".toList, "1G".toList, []⟩
      (by decide) (by decide) (by decide) (by decide)).2
     ⟨1, "-Xmx2G".toList, by decide, by decide, by decide, by decide⟩⟩

/-! ### C4: keys only in the patch file are appended in first-insertion order -/

theorem removeKeys_nil (m : PatchIndex) : removeKeys [] m = m := by
  induction m with
  | nil => rfl
  | cons e rest ih =>
    simp only [removeKeys, List.not_mem_nil, if_false, ih]

theorem removeKeys_cons_none (k : Str) (ks : List Str) (m : PatchIndex)
    (h : ∀ e ∈ m, e.1 ≠ k) : removeKeys (k :: ks) m = removeKeys ks m := by
  induction m with
  | nil => rfl
  | cons e rest ih =>
    have he : e.1 ≠ k := h e (List.mem_cons_self e rest)
    have htail : ∀ e2 ∈ rest, e2.1 ≠ k :=
      fun e2 h2 => h e2 (List.mem_cons_of_mem e h2)
    simp only [removeKeys]
    by_cases hin : e.1 ∈ ks
    · rw [if_pos (List.mem_cons_of_mem k hin), if_pos hin]
      exact ih htail
    · rw [if_neg (fun hmem => by
          rcases List.mem_cons.mp hmem with h2 | h2
          · exact he h2
          · exact hin h2), if_neg hin, ih htail]

theorem removeKeys_cons_del (k : Str) (ks : List Str) (m : PatchIndex)
    (hnd : (m.map Prod.fst).Nodup) :
    removeKeys (k :: ks) m = removeKeys ks (delKey m k) := by
  induction m with
  | nil => rfl
  | cons e rest ih =>
    simp only [List.map_cons, List.nodup_cons] at hnd
    by_cases he : e.1 = k
    · have hrest : ∀ e2 ∈ rest, e2.1 ≠ k := by
        intro e2 h2 hk2
        apply hnd.1
        have h3 : e2.1 ∈ rest.map Prod.fst := List.mem_map_of_mem Prod.fst h2
        rw [hk2, ← he] at h3
        exact h3
      have hd : delKey (e :: rest) k = rest := by
        simp only [delKey, if_pos he]
      have hmem : e.1 ∈ k :: ks := by
        rw [he]
        exact List.mem_cons_self k ks
      have hL : removeKeys (k :: ks) (e :: rest) = removeKeys (k :: ks) rest := by
        simp only [removeKeys, if_pos hmem]
      rw [hd, hL]
      exact removeKeys_cons_none k ks rest hrest
    · have hd : delKey (e :: rest) k = e :: delKey rest k := by
        simp only [delKey, if_neg he]
      rw [hd]
      by_cases hin : e.1 ∈ ks
      · have hmem : e.1 ∈ k :: ks := List.mem_cons_of_mem k hin
        have hL : removeKeys (k :: ks) (e :: rest) = removeKeys (k :: ks) rest := by
          simp only [removeKeys, if_pos hmem]
        have hR : removeKeys ks (e :: delKey rest k) = removeKeys ks (delKey rest k) := by
          simp only [removeKeys, if_pos hin]
        rw [hL, hR]
        exact ih hnd.2
      · have hmem : e.1 ∉ k :: ks := fun hmem => by
          rcases List.mem_cons.mp hmem with h2 | h2
          · exact he h2
          · exact hin h2
        have hL : removeKeys (k :: ks) (e :: rest) = e :: removeKeys (k :: ks) rest := by
          simp only [removeKeys, if_neg hmem]
        have hR : removeKeys ks (e :: delKey rest k) = e :: removeKeys ks (delKey rest k) := by
          simp only [removeKeys, if_neg hin]
        rw [hL, hR, ih hnd.2]

theorem mergeScan_remaining (b : List Str) : ∀ (m : PatchIndex) (out : List Str)
    (m2 : PatchIndex), (m.map Prod.fst).Nodup → mergeScan b m = some (out, m2) →
    m2 = removeKeys (optionKeys b) m := by
  induction b with
  | nil =>
    intro m out m2 _ h
    rw [(mergeScan_nil_inv h).2, optionKeys, removeKeys_nil]
  | cons l rest ih =>
    intro m out m2 hnd h
    by_cases hs : skipLine l = true
    · obtain ⟨t, h2, rfl⟩ := mergeScan_cons_skip hs h
      rw [ih m t m2 hnd h2]
      simp only [optionKeys, if_pos hs]
    · rw [Bool.not_eq_true] at hs
      rcases ho : JVMOption.init (strip l) with _ | o
      · rw [mergeScan_cons_fail hs ho] at h
        exact Option.noConfusion h
      · have hns : ¬ (skipLine l = true) := by rw [hs]; exact Bool.false_ne_true
        rcases mergeScan_cons_opt hs ho h with ⟨p, t, hp, h2, rfl⟩ | ⟨hp, t, h2, rfl⟩
        · have hnd2 : ((delKey m o.key).map Prod.fst).Nodup :=
            hnd.sublist ((delKey_sublist m o.key).map Prod.fst)
          rw [ih _ t m2 hnd2 h2]
          simp only [optionKeys, if_neg hns, ho]
          exact (removeKeys_cons_del o.key (optionKeys rest) m hnd).symm
        · rw [ih m t m2 hnd h2]
          simp only [optionKeys, if_neg hns, ho]
          exact (removeKeys_cons_none o.key (optionKeys rest) m
            ((lookupAssoc_eq_none_iff m o.key).mp hp)).symm

theorem buildPatch_keys (ls : List Str) : ∀ (acc m : PatchIndex),
    buildPatch ls acc = some m →
    m.map Prod.fst = addKeys (acc.map Prod.fst) ls := by
  induction ls with
  | nil =>
    intro acc m h
    simp only [buildPatch, Option.some.injEq] at h
    rw [← h, addKeys]
  | cons l rest ih =>
    intro acc m h
    simp only [buildPatch] at h
    by_cases hs : skipLine l = true
    · rw [if_pos hs] at h
      rw [ih acc m h]
      simp only [addKeys, if_pos hs]
    · rw [if_neg hs] at h
      rcases ho : JVMOption.init (strip l) with _ | o
      · rw [ho] at h
        exact Option.noConfusion h
      · rw [ho] at h
        rw [ih _ m h, insertKey_map_fst]
        simp only [addKeys, if_neg hs, ho]

/-- **C4** (confirmed).  Every patch entry whose key does not occur on any
base option line is appended, serialized, after the lines derived from the
base file (exactly one output line per base line), and the appended entries
keep the patch index's order, which is the order of each key's first
insertion from the patch file. -/
theorem claim4_patch_only_keys_appended (base patchLines out : List Str)
    (m : PatchIndex) (hbp : buildPatch patchLines [] = some m)
    (hm : merge base patchLines = some out) :
    ∃ scanOut, out = scanOut ++
        (removeKeys (optionKeys base) m).map (fun e => JVMOption.repr e.2) ∧
      scanOut.length = base.length ∧
      m.map Prod.fst = firstKeys patchLines := by
  unfold merge at hm
  rw [hbp] at hm
  have hm2 : mergeWithIndex base m = some out := hm
  unfold mergeWithIndex at hm2
  rcases hsc : mergeScan base m with _ | ⟨sOut, m2⟩
  · rw [hsc] at hm2
    exact Option.noConfusion hm2
  · rw [hsc] at hm2
    have hm3 : some (sOut ++ m2.map (fun e => JVMOption.repr e.2)) = some out := hm2
    have hout : sOut ++ m2.map (fun e => JVMOption.repr e.2) = out :=
      Option.some.inj hm3
    have hnd : (m.map Prod.fst).Nodup :=
      buildPatch_nodup patchLines [] m List.nodup_nil hbp
    refine ⟨sOut, ?_, mergeScan_length base m sOut m2 hsc, ?_⟩
    · rw [← hout, mergeScan_remaining base m sOut m2 hnd hsc]
    · rw [buildPatch_keys patchLines [] m hbp]
      rfl

theorem claim4_witness :
    buildPatch ["-XX:+FlightRecorder".toList, "-Xms8G".toList] [] =
      some [("-XX:+FlightRecorder".toList, ⟨"-XX:+FlightRecorder".toList, [], []⟩),
            ("-Xms".toList, ⟨"-Xms".toList, "8G".toList, []⟩)] ∧
    merge ["-Xms4G".toList] ["-XX:+FlightRecorder".toList, "-Xms8G".toList] =
      some ["-Xms8G".toList, "-XX:+FlightRecorder".toList] ∧
    (∃ scanOut : List Str, ["-Xms8G".toList, "-XX:+FlightRecorder".toList] = scanOut ++
        (removeKeys (optionKeys ["-Xms4G".toList])
          [("-XX:+FlightRecorder".toList, ⟨"-XX:+FlightRecorder".toList, [], []⟩),
           ("-Xms".toList, ⟨"-Xms".toList, "8G".toList, []⟩)]).map
            (fun e => JVMOption.repr e.2) ∧
      scanOut.length = (["-Xms4G".toList] : List Str).length ∧
      ([("-XX:+FlightRecorder".toList, ⟨"-XX:+FlightRecorder".toList, [], []⟩),
        ("-Xms".toList, ⟨"-Xms".toList, "8G".toList, []⟩)] : PatchIndex).map Prod.fst =
        firstKeys ["-XX:+FlightRecorder".toList, "-Xms8G".toList]) :=
  ⟨by decide, by decide,
   claim4_patch_only_keys_appended ["-Xms4G".toList]
     ["-XX:+FlightRecorder".toList, "-Xms8G".toList]
     ["-Xms8G".toList, "-XX:+FlightRecorder".toList]
     [("-XX:+FlightRecorder".toList, ⟨"-XX:+FlightRecorder".toList, [], []⟩),
      ("-Xms".toList, ⟨"-Xms".toList, "8G".toList, []⟩)]
     (by decide) (by decide)⟩

/-! ### C3: merging a file with itself -/

theorem insertKey_append_of_not_mem (acc : PatchIndex) (k : Str) (o : JVMOption)
    (h : k ∉ acc.map Prod.fst) : insertKey acc k o = acc ++ [(k, o)] := by
  induction acc with
  | nil => rfl
  | cons e rest ih =>
    rw [List.map_cons] at h
    have he : e.1 ≠ k := fun h2 => h (by rw [← h2]; exact List.mem_cons_self _ _)
    simp only [insertKey, if_neg he]
    rw [ih (fun h2 => h (List.mem_cons_of_mem _ h2)), List.cons_append]

theorem buildPatch_none_reserialize (ls : List Str) : ∀ acc,
    buildPatch ls acc = none → reserialize ls = none := by
  induction ls with
  | nil =>
    intro acc h
    exact Option.noConfusion h
  | cons l rest ih =>
    intro acc h
    simp only [buildPatch] at h
    by_cases hs : skipLine l = true
    · rw [if_pos hs] at h
      have hr : reserialize rest = none := ih _ h
      simp [reserialize, reserializeLine, hs, hr]
    · rw [if_neg hs] at h
      rcases ho : JVMOption.init (strip l) with _ | o
      · simp [reserialize, reserializeLine, hs, ho]
      · rw [ho] at h
        have hr : reserialize rest = none := ih _ h
        simp [reserialize, reserializeLine, hs, ho, hr]

theorem buildPatch_some_parses (ls : List Str) : ∀ acc m,
    buildPatch ls acc = some m →
    ∀ l ∈ ls, skipLine l = false → (JVMOption.init (strip l)).isSome = true := by
  induction ls with
  | nil =>
    intro acc m h l hl
    exact absurd hl (List.not_mem_nil l)
  | cons l2 rest ih =>
    intro acc m h l hl hs
    simp only [buildPatch] at h
    by_cases hs2 : skipLine l2 = true
    · rw [if_pos hs2] at h
      rcases List.mem_cons.mp hl with rfl | hl2
      · rw [hs2] at hs
        exact Bool.noConfusion hs
      · exact ih _ _ h l hl2 hs
    · rw [if_neg hs2] at h
      rcases ho : JVMOption.init (strip l2) with _ | o
      · rw [ho] at h
        exact Option.noConfusion h
      · rw [ho] at h
        rcases List.mem_cons.mp hl with rfl | hl2
        · rw [ho]
          rfl
        · exact ih _ _ h l hl2 hs

theorem buildPatch_entries (ls : List Str) : ∀ (acc m : PatchIndex),
    buildPatch ls acc = some m → (optionKeys ls).Nodup →
    (∀ k ∈ acc.map Prod.fst, k ∉ optionKeys ls) →
    m = acc ++ optionEntries ls := by
  induction ls with
  | nil =>
    intro acc m h _ _
    simp only [buildPatch, Option.some.injEq] at h
    rw [← h, optionEntries, List.append_nil]
  | cons l rest ih =>
    intro acc m h hnd hacc
    simp only [buildPatch] at h
    by_cases hs : skipLine l = true
    · rw [if_pos hs] at h
      have hk : optionKeys (l :: rest) = optionKeys rest := by
        simp only [optionKeys, if_pos hs]
      rw [hk] at hnd hacc
      have he : optionEntries (l :: rest) = optionEntries rest := by
        simp only [optionEntries, if_pos hs]
      rw [he]
      exact ih acc m h hnd hacc
    · rw [if_neg hs] at h
      rcases ho : JVMOption.init (strip l) with _ | o
      · rw [ho] at h
        exact Option.noConfusion h
      · rw [ho] at h
        have h4 : buildPatch rest (insertKey acc o.key o) = some m := h
        have hk : optionKeys (l :: rest) = o.key :: optionKeys rest := by
          simp only [optionKeys, if_neg hs, ho]
        rw [hk] at hnd hacc
        rw [List.nodup_cons] at hnd
        have hkacc : o.key ∉ acc.map Prod.fst := fun h2 =>
          hacc o.key h2 (List.mem_cons_self _ _)
        rw [insertKey_append_of_not_mem acc o.key o hkacc] at h4
        have hacc2 : ∀ k ∈ (acc ++ [(o.key, o)]).map Prod.fst,
            k ∉ optionKeys rest := by
          intro k hk2
          rw [List.map_append] at hk2
          rcases List.mem_append.mp hk2 with h2 | h2
          · exact fun h3 => hacc k h2 (List.mem_cons_of_mem _ h3)
          · rw [List.map_singleton, List.mem_singleton] at h2
            rw [h2]
            exact hnd.1
        rw [ih _ m h4 hnd.2 hacc2]
        have he : optionEntries (l :: rest) = (o.key, o) :: optionEntries rest := by
          simp only [optionEntries, if_neg hs, ho]
        rw [he, List.append_assoc, List.singleton_append]

theorem selfScan (ls : List Str) :
    (∀ l ∈ ls, skipLine l = false → (JVMOption.init (strip l)).isSome = true) →
    ∃ rs, mergeScan ls (optionEntries ls) = some (rs, []) ∧
      reserialize ls = some rs := by
  induction ls with
  | nil =>
    intro _
    exact ⟨[], rfl, rfl⟩
  | cons l rest ih =>
    intro hparse
    obtain ⟨rs, hsc, hrs⟩ :=
      ih (fun l2 h2 hs2 => hparse l2 (List.mem_cons_of_mem l h2) hs2)
    by_cases hs : skipLine l = true
    · have he : optionEntries (l :: rest) = optionEntries rest := by
        simp only [optionEntries, if_pos hs]
      refine ⟨l :: rs, ?_, ?_⟩
      · rw [he]
        exact mergeScan_cons_skip_fwd hs hsc
      · simp [reserialize, reserializeLine, hs, hrs]
    · rw [Bool.not_eq_true] at hs
      rcases ho : JVMOption.init (strip l) with _ | o
      · have h2 := hparse l (List.mem_cons_self l rest) hs
        rw [ho] at h2
        exact Bool.noConfusion h2
      · have hns : ¬ (skipLine l = true) := by rw [hs]; exact Bool.false_ne_true
        have he : optionEntries (l :: rest) = (o.key, o) :: optionEntries rest := by
          simp only [optionEntries, if_neg hns, ho]
        have hlook : lookupAssoc ((o.key, o) :: optionEntries rest) o.key = some o := by
          simp [lookupAssoc]
        have hdel : delKey ((o.key, o) :: optionEntries rest) o.key =
            optionEntries rest := by
          simp [delKey]
        refine ⟨JVMOption.repr o :: rs, ?_, ?_⟩
        · rw [he]
          refine mergeScan_cons_patched_fwd hs ho hlook ?_
          rw [hdel]
          exact hsc
        · have hline : reserializeLine l = some (JVMOption.repr o) := by
            simp [reserializeLine, hs, ho]
          simp [reserialize, hline, hrs]

/-- **C3 counterexample**.  The file `[-Xmx4G, -Xmx8G]` is well-formed (each
line is a trimmed, parseable option), yet merging it with itself yields
`[-Xmx8G, -Xmx8G]`, not its re-serialization `[-Xmx4G, -Xmx8G]`: the patch
index maps `-Xmx` to the last occurrence, which replaces the *first*
occurrence during the scan. -/
theorem claim3_counterexample :
    cleanFile ["-Xmx4G".toList, "-Xmx8G".toList] = true ∧
    merge ["-Xmx4G".toList, "-Xmx8G".toList] ["-Xmx4G".toList, "-Xmx8G".toList] ≠
      reserialize ["-Xmx4G".toList, "-Xmx8G".toList] := by
  constructor
  · decide
  · decide

/-- **C3 (amended)**.  Merging a well-formed options file with itself as the
patch yields exactly the file's re-serialization, *provided its option lines
have pairwise distinct keys*: comment/blank lines pass through, every option
line round-trips, and nothing is appended.  (With a duplicated key the claim
fails, see the counterexample.) -/
theorem claim3_self_merge_reserializes (f : List Str)
    (hnd : (optionKeys f).Nodup) : merge f f = reserialize f := by
  rcases hbp : buildPatch f [] with _ | m
  · have h1 : merge f f = none := by
      unfold merge
      rw [hbp]
    rw [h1, buildPatch_none_reserialize f [] hbp]
  · have hparse := buildPatch_some_parses f [] m hbp
    have hent : m = [] ++ optionEntries f :=
      buildPatch_entries f [] m hbp hnd (fun k hk => absurd hk (by simp))
    rw [List.nil_append] at hent
    obtain ⟨rs, hsc, hrs⟩ := selfScan f hparse
    have h1 : merge f f = mergeWithIndex f m := by
      unfold merge
      rw [hbp]
    rw [h1, hent]
    unfold mergeWithIndex
    rw [hsc, hrs]
    simp

theorem claim3_witness :
    (optionKeys ["-Xms4G".toList, "# h".toList, "-Dfoo=bar".toList]).Nodup ∧
    merge ["-Xms4G".toList, "# h".toList, "-Dfoo=bar".toList]
        ["-Xms4G".toList, "# h".toList, "-Dfoo=bar".toList] =
      reserialize ["-Xms4G".toList, "# h".toList, "-Dfoo=bar".toList] :=
  ⟨by decide,
   claim3_self_merge_reserializes
     ["-Xms4G".toList, "# h".toList, "-Dfoo=bar".toList] (by decide)⟩

/-! ### C2: override correctness -/

theorem isKeyOption_false_of_skip {k line : Str} (hs : skipLine line = true) :
    isKeyOption k line = false := by
  simp [isKeyOption, hs]

theorem isKeyOption_false_of_key_ne {k line : Str} {o : JVMOption}
    (hinit : JVMOption.init line = some o) (hne : o.key ≠ k) :
    isKeyOption k line = false := by
  simp [isKeyOption, hinit, hne]

theorem isKeyOption_true_of {k line : Str} {o : JVMOption}
    (hs : skipLine line = false) (hinit : JVMOption.init line = some o)
    (hk : o.key = k) : isKeyOption k line = true := by
  simp [isKeyOption, hs, hinit, hk]

theorem goodIndex_sublist {m m2 : PatchIndex} (hg : goodIndex m)
    (hsub : List.Sublist m2 m) : goodIndex m2 :=
  fun e he => hg e (hsub.subset he)

/-- Scanning base lines none of which is an option with key `k` produces no
output line that is the serialization of a key-`k` option. -/
theorem mergeScan_countP_zero (k : Str) (b : List Str) : ∀ (m : PatchIndex)
    (out : List Str) (m2 : PatchIndex), goodIndex m →
    (∀ l ∈ b, skipLine l = true ∨ keyOfLine l ≠ some k) →
    mergeScan b m = some (out, m2) →
    out.countP (isKeyOption k) = 0 := by
  induction b with
  | nil =>
    intro m out m2 _ _ h
    rw [(mergeScan_nil_inv h).1]
    rfl
  | cons l rest ih =>
    intro m out m2 hg hb h
    have hbt : ∀ l2 ∈ rest, skipLine l2 = true ∨ keyOfLine l2 ≠ some k :=
      fun l2 h2 => hb l2 (List.mem_cons_of_mem l h2)
    by_cases hs : skipLine l = true
    · obtain ⟨t, h2, rfl⟩ := mergeScan_cons_skip hs h
      rw [List.countP_cons, ih m t m2 hg hbt h2, isKeyOption_false_of_skip hs]
      simp
    · rw [Bool.not_eq_true] at hs
      rcases ho : JVMOption.init (strip l) with _ | o
      · rw [mergeScan_cons_fail hs ho] at h
        exact Option.noConfusion h
      · have hne : o.key ≠ k := by
          rcases hb l (List.mem_cons_self l rest) with h3 | h3
          · rw [hs] at h3
            exact Bool.noConfusion h3
          · intro hkk
            apply h3
            rw [keyOfLine, ho]
            exact congrArg some hkk
        rcases mergeScan_cons_opt hs ho h with ⟨p, t, hp, h2, rfl⟩ | ⟨hp, t, h2, rfl⟩
        · have hgp := hg _ (lookupAssoc_mem m o.key p hp)
          have hfalse : isKeyOption k (JVMOption.repr p) = false :=
            isKeyOption_false_of_key_ne hgp.2 (by rw [← hgp.1]; exact hne)
          rw [List.countP_cons, hfalse,
            ih _ t m2 (goodIndex_sublist hg (delKey_sublist m o.key)) hbt h2]
          simp
        · have hro : JVMOption.init (JVMOption.repr o) = some o := by
            rw [init_roundTrip ho]
            exact ho
          have hfalse : isKeyOption k (JVMOption.repr o) = false :=
            isKeyOption_false_of_key_ne hro hne
          rw [List.countP_cons, hfalse, ih m t m2 hg hbt h2]
          simp

/-- The appended serializations of index entries whose keys differ from `k`
contain no key-`k` option line. -/
theorem countP_map_repr_zero (k : Str) (m2 : PatchIndex) : goodIndex m2 →
    (∀ e ∈ m2, e.1 ≠ k) →
    (m2.map (fun e => JVMOption.repr e.2)).countP (isKeyOption k) = 0 := by
  induction m2 with
  | nil =>
    intro _ _
    rfl
  | cons e rest ih =>
    intro hg hk
    have hge := hg e (List.mem_cons_self e rest)
    have hfalse : isKeyOption k (JVMOption.repr e.2) = false :=
      isKeyOption_false_of_key_ne hge.2
        (by rw [← hge.1]; exact hk e (List.mem_cons_self e rest))
    rw [List.map_cons, List.countP_cons, hfalse,
      ih (fun e2 h2 => hg e2 (List.mem_cons_of_mem e h2))
         (fun e2 h2 => hk e2 (List.mem_cons_of_mem e h2))]
    simp

/-- **C2 counterexample**.  Key `-Xmx` appears in both base (twice) and
patch, yet the merged output contains *two* key-`-Xmx` option lines, the
second being the base's own value `-Xmx2G`: with a duplicated base key the
claim's "the patch's value, never the base's, exactly once" fails. -/
theorem claim2_counterexample :
    merge ["-Xmx4G".toList, "-Xmx2G".toList] ["-Xmx8G".toList] =
      some ["-Xmx8G".toList, "-Xmx2G".toList] ∧
    keyOfLine ("-Xmx4G".toList) = some ("-Xmx".toList) ∧
    keyOfLine ("-Xmx8G".toList) = some ("-Xmx".toList) ∧
    (["-Xmx8G".toList, "-Xmx2G".toList].countP
      (isKeyOption ("-Xmx".toList))) = 2 := by
  refine ⟨?_, ?_, ?_, ?_⟩ <;> decide

/-- **C2 (amended)**.  For a key `k` present in the patch index and occurring
on *exactly one* base option line (the base decomposes as `b1 ++ lk :: b2`
with no key-`k` option line in `b1` or `b2`), and whose patched
serialization is not itself comment/blank-shaped, the merged output contains
exactly one key-`k` option line: the patch's serialization, at the position
of the base's occurrence.  (With a duplicated base key the original claim
fails, see the counterexample.) -/
theorem claim2_override (patchLines b1 b2 : List Str) (lk : Str) (k : Str)
    (ok p : JVMOption) (m : PatchIndex) (out : List Str)
    (hs : skipLine lk = false) (hok : JVMOption.init (strip lk) = some ok)
    (hkk : ok.key = k)
    (hb1 : ∀ l ∈ b1, skipLine l = true ∨ keyOfLine l ≠ some k)
    (hb2 : ∀ l ∈ b2, skipLine l = true ∨ keyOfLine l ≠ some k)
    (hbp : buildPatch patchLines [] = some m)
    (hp : lookupAssoc m k = some p)
    (hsp : skipLine (JVMOption.repr p) = false)
    (hm : merge (b1 ++ (lk :: b2)) patchLines = some out) :
    ∃ u1 u2, out = u1 ++ JVMOption.repr p :: u2 ∧ u1.length = b1.length ∧
      out.countP (isKeyOption k) = 1 := by
  subst hkk
  unfold merge at hm
  rw [hbp] at hm
  have hm2 : mergeWithIndex (b1 ++ (lk :: b2)) m = some out := hm
  unfold mergeWithIndex at hm2
  rcases hsc : mergeScan (b1 ++ (lk :: b2)) m with _ | ⟨sOut, m2⟩
  · rw [hsc] at hm2
    exact Option.noConfusion hm2
  · rw [hsc] at hm2
    have hm3 : some (sOut ++ m2.map (fun e => JVMOption.repr e.2)) = some out := hm2
    have hout : sOut ++ m2.map (fun e => JVMOption.repr e.2) = out :=
      Option.some.inj hm3
    have hg : goodIndex m :=
      buildPatch_good patchLines [] m
        (fun e he => absurd he (List.not_mem_nil e)) hbp
    have hnd : (m.map Prod.fst).Nodup :=
      buildPatch_nodup patchLines [] m List.nodup_nil hbp
    obtain ⟨u1, m1, out2, hscan1, hscan2, rfl⟩ :=
      mergeScan_append b1 (lk :: b2) m sOut m2 hsc
    have hlook1 : lookupAssoc m1 ok.key = some p := by
      rw [mergeScan_preserve_lookup b1 m u1 m1 ok.key hb1 hscan1]
      exact hp
    have hsub1 : List.Sublist m1 m := mergeScan_index_sublist b1 m u1 m1 hscan1
    have hnd1 : (m1.map Prod.fst).Nodup := hnd.sublist (hsub1.map Prod.fst)
    have hg1 : goodIndex m1 := goodIndex_sublist hg hsub1
    rcases mergeScan_cons_opt hs hok hscan2 with
      ⟨p2, t, hp2, h2, rfl⟩ | ⟨hpn, -, -, -⟩
    · have hpp : p = p2 := by
        rw [hp2] at hlook1
        exact (Option.some.inj hlook1).symm
      subst hpp
      have hgdel : goodIndex (delKey m1 ok.key) :=
        goodIndex_sublist hg1 (delKey_sublist m1 ok.key)
      have hsub2 : List.Sublist m2 (delKey m1 ok.key) :=
        mergeScan_index_sublist b2 (delKey m1 ok.key) t m2 h2
      have hc1 : u1.countP (isKeyOption ok.key) = 0 :=
        mergeScan_countP_zero ok.key b1 m u1 m1 hg hb1 hscan1
      have hct : t.countP (isKeyOption ok.key) = 0 :=
        mergeScan_countP_zero ok.key b2 (delKey m1 ok.key) t m2 hgdel hb2 h2
      have hca : (m2.map (fun e => JVMOption.repr e.2)).countP
          (isKeyOption ok.key) = 0 :=
        countP_map_repr_zero ok.key m2 (goodIndex_sublist hgdel hsub2)
          (fun e he => mem_delKey_ne m1 ok.key hnd1 e (hsub2.subset he))
      have hgp := hg _ (lookupAssoc_mem m ok.key p hp)
      have hcp : isKeyOption ok.key (JVMOption.repr p) = true :=
        isKeyOption_true_of hsp hgp.2 hgp.1.symm
      refine ⟨u1, t ++ m2.map (fun e => JVMOption.repr e.2), ?_,
        mergeScan_length b1 m u1 m1 hscan1, ?_⟩
      · rw [← hout]
        simp [List.append_assoc, List.cons_append]
      · rw [← hout, List.countP_append, List.countP_append, List.countP_cons,
          hc1, hct, hca, hcp]
        simp
    · rw [hpn] at hlook1
      exact Option.noConfusion hlook1

theorem claim2_witness :
    buildPatch ["-Xmx8G".toList] [] =
      some [("-Xmx".toList, ⟨"-Xmx".toList, "8G".toList, []⟩)] ∧
    merge ["# c".toList, "-Xmx4G".toList, "-Dfoo=1".toList] ["-Xmx8G".toList] =
      some ["# c".toList, "-Xmx8G".toList, "-Dfoo=1".toList] ∧
    (∃ u1 u2, ["# c".toList, "-Xmx8G".toList, "-Dfoo=1".toList] =
        u1 ++ JVMOption.repr ⟨"-Xmx".toList, "8G".toList, []⟩ :: u2 ∧
      u1.length = (["# c".toList] : List Str).length ∧
      (["# c".toList, "-Xmx8G".toList, "-Dfoo=1".toList].countP
        (isKeyOption ("-Xmx".toList))) = 1) :=
  ⟨by decide, by decide,
   claim2_override ["-Xmx8G".toList] ["# c".toList] ["-Dfoo=1".toList]
     ("-Xmx4G".toList) ("-Xmx".toList)
     ⟨"-Xmx".toList, "4G".toList, []⟩ ⟨"-Xmx".toList, "8G".toList, []⟩
     [("-Xmx".toList, ⟨"-Xmx".toList, "8G".toList, []⟩)]
     ["# c".toList, "-Xmx8G".toList, "-Dfoo=1".toList]
     (by decide) (by decide) (by decide) (by decide) (by decide)
     (by decide) (by decide) (by decide) (by decide)⟩

end PatchJVM
